import Mathlib

/-!
Verification of the `stringutils` C++ library (stringutils-cpp).

The C++ code operates on `std::string`, i.e. sequences of narrow characters
(bytes).  We model a string as a `List Nat` of byte values, and `std::toupper`
(default C locale, applied to `unsigned char`) as ASCII upper-casing.

Each definition below is a shallow embedding of the corresponding function of
`src/stringutils.cpp`; loops become structural recursions (with an explicit
fuel argument where the C++ loop variable is not itself structurally
decreasing, chosen so that the fuel never runs out on the reachable states).
-/

namespace StringUtils

open scoped List

/-- Model of `std::toupper` on a byte under the default C locale:
lowercase ASCII letters are mapped to uppercase, all other bytes are fixed. -/
def c_toupper (c : Nat) : Nat := if 97 ≤ c ∧ c ≤ 122 then c - 32 else c

/-- Embedding of `stringutils::reverse_string`: returns the input unchanged
when empty, otherwise the reversed string. -/
def reverse_string (input : List Nat) : List Nat :=
  if input.isEmpty then input else input.reverse

/-- Embedding of `stringutils::count_char`: 0 for the empty string, otherwise
the number of exact occurrences of byte `c` in `input`. -/
def count_char (input : List Nat) (c : Nat) : Nat :=
  if input.isEmpty then 0 else input.count c

/-- The loop of `stringutils::remove_duplicates`: walk the input, keeping a
`seen` set (here a list) and emitting each character not seen before. -/
def removeDupGo (seen : List Nat) : List Nat → List Nat
  | [] => []
  | c :: rest =>
    if c ∈ seen then removeDupGo seen rest else c :: removeDupGo (c :: seen) rest

/-- Embedding of `stringutils::remove_duplicates`. -/
def remove_duplicates (input : List Nat) : List Nat := removeDupGo [] input

/-- Modelled from the spec: a character of the input is kept exactly when it
does not occur in the part of the input before it (first occurrence kept,
relative order preserved).  `pre` is the prefix already walked. -/
def keepFirstGo (pre : List Nat) : List Nat → List Nat
  | [] => []
  | c :: rest =>
    if c ∈ pre then keepFirstGo (pre ++ [c]) rest
    else c :: keepFirstGo (pre ++ [c]) rest

/-- Modelled from the spec: keep only the first occurrence of each character. -/
def keepFirst (s : List Nat) : List Nat := keepFirstGo [] s

/-- Embedding of `stringutils::validate_dna`: the empty sequence is valid,
otherwise every byte must upper-case to one of `A` (65), `T` (84), `G` (71),
`C` (67). -/
def validate_dna (sequence : List Nat) : Bool :=
  if sequence.isEmpty then true
  else sequence.all fun c =>
    c_toupper c == 65 || c_toupper c == 84 || c_toupper c == 71 || c_toupper c == 67

/-- Embedding of `stringutils::calculate_gc_content`, with the C++ `double`
arithmetic modelled by exact rational arithmetic: 0 for the empty sequence,
otherwise `(gc_count / length) * 100` where `gc_count` counts bytes that
upper-case to `G` (71) or `C` (67). -/
def calculate_gc_content (sequence : List Nat) : ℚ :=
  if sequence.isEmpty then 0
  else ((sequence.countP fun c => c_toupper c == 71 || c_toupper c == 67 : ℚ) /
    (sequence.length : ℚ)) * 100

/-- Row `i+1` of the LCS dynamic-programming table of
`stringutils::longest_common_subsequence`, as a function of the column, given
row `i` (`prev`).  `lcsRow s1 s2 i prev (j+1)` is `dp[i+1][j+1]` computed by
the table-filling loop: `dp[i][j] + 1` on a character match, otherwise
`max (dp[i][j+1]) (dp[i+1][j])`. -/
def lcsRow (s1 s2 : List Nat) (i : Nat) (prev : Nat → Nat) : Nat → Nat
  | 0 => 0
  | j + 1 =>
    if s1.getD i 0 = s2.getD j 0 then prev j + 1
    else max (prev (j + 1)) (lcsRow s1 s2 i prev j)

/-- The LCS dynamic-programming table: `lcsTable s1 s2 i j` is `dp[i][j]`, the
table entry for the prefixes of lengths `i` and `j`. -/
def lcsTable (s1 s2 : List Nat) : Nat → Nat → Nat
  | 0 => fun _ => 0
  | i + 1 => lcsRow s1 s2 i (lcsTable s1 s2 i)

/-- The backtracking loop of `stringutils::longest_common_subsequence`.  The
fuel argument is `i + j`, which decreases by exactly one on the mismatch steps
and by two on match steps, so starting the fuel at `i + j` exactly reproduces
the C++ `while (i > 0 && j > 0)` loop.  On a mismatch the C++ code moves up
(`i--`) only when `dp[i-1][j] > dp[i][j-1]` holds strictly; otherwise — in
particular on ties — it moves left (`j--`). -/
def lcsBTgo (s1 s2 : List Nat) : Nat → Nat → Nat → List Nat
  | 0, _, _ => []
  | _ + 1, 0, _ => []
  | _ + 1, _ + 1, 0 => []
  | k + 1, i + 1, j + 1 =>
    if s1.getD i 0 = s2.getD j 0 then lcsBTgo s1 s2 k i j ++ [s1.getD i 0]
    else if lcsTable s1 s2 i (j + 1) > lcsTable s1 s2 (i + 1) j then
      lcsBTgo s1 s2 k i (j + 1)
    else lcsBTgo s1 s2 k (i + 1) j

/-- Embedding of `stringutils::longest_common_subsequence`: fill the table and
backtrack from the bottom-right cell. -/
def longest_common_subsequence (s1 s2 : List Nat) : List Nat :=
  lcsBTgo s1 s2 (s1.length + s2.length) s1.length s2.length

/-- Modelled from the spec (claim C1 as stated): backtracking that moves
toward the larger neighboring cell and, on a tie, decrements the FIRST
sequence's index (moves up).  Same fuel convention as `lcsBTgo`. -/
def lcsBTSpecUp (s1 s2 : List Nat) : Nat → Nat → Nat → List Nat
  | 0, _, _ => []
  | _ + 1, 0, _ => []
  | _ + 1, _ + 1, 0 => []
  | k + 1, i + 1, j + 1 =>
    if s1.getD i 0 = s2.getD j 0 then lcsBTSpecUp s1 s2 k i j ++ [s1.getD i 0]
    else if lcsTable s1 s2 i (j + 1) ≥ lcsTable s1 s2 (i + 1) j then
      lcsBTSpecUp s1 s2 k i (j + 1)
    else lcsBTSpecUp s1 s2 k (i + 1) j

/-- The LCS reconstruction described by claim C1: table plus backtracking with
the up-on-tie preference. -/
def lcsSpecUp (s1 s2 : List Nat) : List Nat :=
  lcsBTSpecUp s1 s2 (s1.length + s2.length) s1.length s2.length

/-- Modelled from the amended spec: backtracking that moves toward the larger
neighboring cell and, on a tie, decrements the SECOND sequence's index (moves
left): it moves left exactly when `dp[i][j-1] ≥ dp[i-1][j]`. -/
def lcsBTSpecLeft (s1 s2 : List Nat) : Nat → Nat → Nat → List Nat
  | 0, _, _ => []
  | _ + 1, 0, _ => []
  | _ + 1, _ + 1, 0 => []
  | k + 1, i + 1, j + 1 =>
    if s1.getD i 0 = s2.getD j 0 then lcsBTSpecLeft s1 s2 k i j ++ [s1.getD i 0]
    else if lcsTable s1 s2 (i + 1) j ≥ lcsTable s1 s2 i (j + 1) then
      lcsBTSpecLeft s1 s2 k (i + 1) j
    else lcsBTSpecLeft s1 s2 k i (j + 1)

/-- The LCS reconstruction with the left-on-tie preference. -/
def lcsSpecLeft (s1 s2 : List Nat) : List Nat :=
  lcsBTSpecLeft s1 s2 (s1.length + s2.length) s1.length s2.length

/-- Row `i+1` of the Levenshtein dynamic-programming table of
`stringutils::levenshtein_distance`, given row `i` (`prev`): `dp[i+1][0] =
i+1`, and `dp[i+1][j+1]` is `dp[i][j]` on a match, otherwise
`1 + min (dp[i][j+1]) (min (dp[i+1][j]) (dp[i][j]))`. -/
def levRow (s1 s2 : List Nat) (i : Nat) (prev : Nat → Nat) : Nat → Nat
  | 0 => i + 1
  | j + 1 =>
    if s1.getD i 0 = s2.getD j 0 then prev j
    else 1 + min (prev (j + 1)) (min (levRow s1 s2 i prev j) (prev j))

/-- The Levenshtein dynamic-programming table: `levTable s1 s2 i j` is
`dp[i][j]`, with base row `dp[0][j] = j`. -/
def levTable (s1 s2 : List Nat) : Nat → Nat → Nat
  | 0 => fun j => j
  | i + 1 => levRow s1 s2 i (levTable s1 s2 i)

/-- Embedding of `stringutils::levenshtein_distance`: the bottom-right table
entry. -/
def levenshtein_distance (s1 s2 : List Nat) : Nat :=
  levTable s1 s2 s1.length s2.length

/-- Modelled from the spec: the classic Levenshtein recurrence, base cases
`dp[i][0] = i` and `dp[0][j] = j`, transition cost 1 for insert, delete and
substitute and 0 for a match. -/
def levSpecDp (s1 s2 : List Nat) : Nat → Nat → Nat
  | i, 0 => i
  | 0, j + 1 => j + 1
  | i + 1, j + 1 =>
    if s1.getD i 0 = s2.getD j 0 then levSpecDp s1 s2 i j
    else 1 + min (levSpecDp s1 s2 i (j + 1))
      (min (levSpecDp s1 s2 (i + 1) j) (levSpecDp s1 s2 i j))
  termination_by i j => (i, j)

/-- The inner `while (j > 0 && text[i] != pattern[j]) j = failure[j-1];` loop
shared by the failure-function construction and the scanning loop of
`stringutils::find_pattern`.  The fuel starts at `j`; since the failure table
built below satisfies `failure[k] ≤ k`, the loop body strictly decreases `j`,
so the fuel never runs out on reachable states. -/
def kmpFB (p fail : List Nat) (c : Nat) : Nat → Nat → Nat
  | 0, j => j
  | fuel + 1, j =>
    if j ≠ 0 ∧ c ≠ p.getD j 0 then kmpFB p fail c fuel (fail.getD (j - 1) 0)
    else j

/-- The loop of `build_failure_function` in `stringutils::find_pattern`: walk
the pattern from index 1 (the list argument is `p.drop 1`), carrying the
running border length `j` and the failure entries built so far (`fail`), and
append `failure[i] = j` after each step. -/
def buildGo (p : List Nat) : List Nat → Nat → List Nat → List Nat
  | [], _, fail => fail
  | c :: rest, j, fail =>
    let j1 := kmpFB p fail c j j
    let j2 := if c = p.getD j1 0 then j1 + 1 else j1
    buildGo p rest j2 (fail ++ [j2])

/-- Embedding of `build_failure_function`: `failure[0] = 0` and the loop above
for the remaining indices. -/
def build_failure_function (p : List Nat) : List Nat :=
  if p.isEmpty then [] else buildGo p (p.drop 1) 0 [0]

/-- The scanning loop of `stringutils::find_pattern`: process each text byte,
update the match length `j`, record `i - m + 1` on a full match and fall back
through the failure table. -/
def kmpScanGo (p fail : List Nat) (m : Nat) : List Nat → Nat → Nat → List Nat
  | [], _, _ => []
  | c :: rest, i, j =>
    let j1 := kmpFB p fail c j j
    let j2 := if c = p.getD j1 0 then j1 + 1 else j1
    if j2 = m then (i + 1 - m) :: kmpScanGo p fail m rest (i + 1) (fail.getD (m - 1) 0)
    else kmpScanGo p fail m rest (i + 1) j2

/-- Embedding of `stringutils::find_pattern`: empty result for the edge cases,
otherwise the KMP scan with the precomputed failure table. -/
def find_pattern (text pattern : List Nat) : List Nat :=
  if pattern.isEmpty ∨ text.isEmpty ∨ text.length < pattern.length then []
  else kmpScanGo pattern (build_failure_function pattern) pattern.length text 0 0

/-- Modelled from the spec: the ascending list of all zero-based offsets at
which `pattern` occurs as a contiguous substring of `text` (overlapping
occurrences included). -/
def pattern_occurrences (text pattern : List Nat) : List Nat :=
  (List.range (text.length + 1 - pattern.length)).filter
    fun q => pattern.isPrefixOf (text.drop q)

/-- Proof-side description of the KMP scan output: walking the text with the
processed part `s` accumulated, emit `|s| + 1 - |p|` whenever the pattern is a
suffix of the processed part extended by the current byte. -/
def occEndGo (p s : List Nat) : List Nat → List Nat
  | [] => []
  | c :: rest =>
    if p <:+ s ++ [c] then (s.length + 1 - p.length) :: occEndGo p (s ++ [c]) rest
    else occEndGo p (s ++ [c]) rest

/-- The largest `k ≤ b` such that the length-`k` prefix of `p` is a suffix of
`s` — the quantity tracked by the KMP state variable `j`. -/
def bestBorder (p s : List Nat) (b : Nat) : Nat :=
  Nat.findGreatest (fun k => p.take k <:+ s) b

/-! ## General helper lemmas -/

theorem take_succ_getD {l : List Nat} {i : Nat} (h : i < l.length) :
    l.take (i + 1) = l.take i ++ [l.getD i 0] := by
  rw [List.take_succ, List.getElem?_eq_getElem h, List.getD_eq_getElem _ _ h]
  rfl

theorem count_char_eq_count (s : List Nat) (c : Nat) : count_char s c = s.count c := by
  cases s <;> simp [count_char]

/-! ## C6: double reversal -/

/-- C6: for every string s (including the empty string),
`reverse_string (reverse_string s) = s`. -/
theorem reverse_string_reverse_string (s : List Nat) :
    reverse_string (reverse_string s) = s := by
  cases s with
  | nil => rfl
  | cons a l => simp [reverse_string]

/-! ## C4: DNA validation -/

/-- C4: `validate_dna s` is true iff every byte of `s` upper-cases to one of
A, T, G, C; the empty string, "atgc" and "ATGCX" behave as claimed. -/
theorem validate_dna_correct :
    (∀ s : List Nat, validate_dna s = true ↔
      ∀ c ∈ s, c_toupper c = 65 ∨ c_toupper c = 84 ∨ c_toupper c = 71 ∨ c_toupper c = 67) ∧
    validate_dna [] = true ∧
    validate_dna [97, 116, 103, 99] = true ∧
    validate_dna [65, 84, 71, 67, 88] = false := by
  refine ⟨fun s => ?_, by decide, by decide, by decide⟩
  cases s with
  | nil => simp [validate_dna]
  | cons a l =>
    simp [validate_dna, List.all_eq_true, Bool.or_eq_true, beq_iff_eq, or_assoc]

/-! ## C7: character counts sum to the length -/

/-- C7: summing `count_char s c` over the distinct characters of `s` gives the
length of `s`; counting in the empty string gives 0. -/
theorem count_char_sum_length :
    (∀ s : List Nat, (s.dedup.map fun c => count_char s c).sum = s.length) ∧
    ∀ c : Nat, count_char [] c = 0 := by
  refine ⟨fun s => ?_, fun c => rfl⟩
  simp only [count_char_eq_count]
  exact List.sum_map_count_dedup_eq_length s

/-! ## C3: find_pattern edge cases -/

/-- C3: an empty pattern, an empty text, or a pattern longer than the text
gives an empty match list (the embedding is a total function: the C++ code
returns normally in these cases, it does not signal an error). -/
theorem find_pattern_edge_cases (t p : List Nat)
    (h : p = [] ∨ t = [] ∨ t.length < p.length) : find_pattern t p = [] := by
  have hc : (p.isEmpty ∨ t.isEmpty ∨ t.length < p.length) := by
    rcases h with rfl | rfl | h
    · exact Or.inl rfl
    · exact Or.inr (Or.inl rfl)
    · exact Or.inr (Or.inr h)
  unfold find_pattern
  exact if_pos hc

/-- Witness for C3 at a concrete input: empty text, one-byte pattern. -/
theorem find_pattern_edge_cases_witness : find_pattern [] [97] = [] :=
  find_pattern_edge_cases [] [97] (Or.inr (Or.inl rfl))

/-! ## C5: GC content -/

/-- C5: GC content is 0 on the empty sequence, and otherwise equals
`100 * gc_count / length`, a value between 0 and 100; "GCGC" gives exactly 100
and "ATGC" exactly 50. -/
theorem calculate_gc_content_correct :
    calculate_gc_content [] = 0 ∧
    (∀ s : List Nat, s ≠ [] →
      calculate_gc_content s =
        100 * ((s.countP fun c => c_toupper c == 71 || c_toupper c == 67 : Nat) : ℚ) /
          (s.length : ℚ) ∧
      0 ≤ calculate_gc_content s ∧ calculate_gc_content s ≤ 100) ∧
    calculate_gc_content [71, 67, 71, 67] = 100 ∧
    calculate_gc_content [65, 84, 71, 67] = 50 := by
  have e1 : (List.countP (fun c => c_toupper c == 71 || c_toupper c == 67)
      [71, 67, 71, 67]) = 4 := rfl
  have e2 : (List.countP (fun c => c_toupper c == 71 || c_toupper c == 67)
      [65, 84, 71, 67]) = 2 := rfl
  refine ⟨rfl, fun s hs => ?_,
    by show (_ / _) * 100 = (100 : ℚ); rw [e1]; norm_num,
    by show (_ / _) * 100 = (50 : ℚ); rw [e2]; norm_num⟩
  obtain ⟨a, l, rfl⟩ : ∃ a l, s = a :: l := by
    cases s with
    | nil => exact absurd rfl hs
    | cons a l => exact ⟨a, l, rfl⟩
  have hlen : (0 : ℚ) < ((a :: l).length : ℚ) := by
    exact_mod_cast Nat.succ_pos l.length
  have hcnt : (((a :: l).countP fun c => c_toupper c == 71 || c_toupper c == 67 : Nat) : ℚ) ≤
      ((a :: l).length : ℚ) := by
    exact_mod_cast List.countP_le_length _
  have hval : calculate_gc_content (a :: l) =
      (((a :: l).countP fun c => c_toupper c == 71 || c_toupper c == 67 : Nat) : ℚ) /
        ((a :: l).length : ℚ) * 100 := rfl
  refine ⟨by rw [hval]; ring, ?_, ?_⟩
  · rw [hval]
    positivity
  · rw [hval]
    calc (((a :: l).countP fun c => c_toupper c == 71 || c_toupper c == 67 : Nat) : ℚ) /
        ((a :: l).length : ℚ) * 100 ≤ 1 * 100 := by
          apply mul_le_mul_of_nonneg_right _ (by norm_num)
          exact (div_le_one hlen).mpr hcnt
    _ = 100 := by norm_num

/-- Witness for C5 at a concrete nonempty input. -/
theorem calculate_gc_content_correct_witness :
    calculate_gc_content [65, 84, 71, 67] =
      100 * ((([65, 84, 71, 67] : List Nat).countP
        fun c => c_toupper c == 71 || c_toupper c == 67 : Nat) : ℚ) /
        (([65, 84, 71, 67] : List Nat).length : ℚ) ∧
    0 ≤ calculate_gc_content [65, 84, 71, 67] ∧
    calculate_gc_content [65, 84, 71, 67] ≤ 100 :=
  calculate_gc_content_correct.2.1 [65, 84, 71, 67] (by decide)

/-! ## C9: remove_duplicates -/

theorem removeDupGo_eq_keepFirstGo (l : List Nat) :
    ∀ seen pre : List Nat, (∀ c, c ∈ seen ↔ c ∈ pre) →
      removeDupGo seen l = keepFirstGo pre l := by
  induction l with
  | nil => intro seen pre _; rfl
  | cons c rest ih =>
    intro seen pre h
    by_cases hc : c ∈ seen
    · have hc' : c ∈ pre := (h c).mp hc
      simp only [removeDupGo, keepFirstGo, if_pos hc, if_pos hc']
      exact ih _ _ fun d => by
        simp only [List.mem_append, List.mem_singleton, h d]
        constructor
        · exact Or.inl
        · rintro (hd | rfl)
          · exact hd
          · exact hc'
    · have hc' : c ∉ pre := fun hp => hc ((h c).mpr hp)
      simp only [removeDupGo, keepFirstGo, if_neg hc, if_neg hc']
      congr 1
      exact ih _ _ fun d => by
        simp only [List.mem_cons, List.mem_append, List.mem_singleton, h d]
        tauto

theorem removeDupGo_sublist (l : List Nat) :
    ∀ seen : List Nat, removeDupGo seen l <+ l := by
  induction l with
  | nil => intro seen; exact List.Sublist.refl _
  | cons c rest ih =>
    intro seen
    by_cases hc : c ∈ seen
    · simp only [removeDupGo, if_pos hc]
      exact (ih seen).trans (List.sublist_cons_self c rest)
    · simp only [removeDupGo, if_neg hc]
      exact (ih (c :: seen)).cons₂ c

theorem removeDupGo_nodup (l : List Nat) :
    ∀ seen : List Nat,
      (∀ c ∈ removeDupGo seen l, c ∉ seen) ∧ (removeDupGo seen l).Nodup := by
  induction l with
  | nil => intro seen; exact ⟨by simp [removeDupGo], by simp [removeDupGo]⟩
  | cons c rest ih =>
    intro seen
    by_cases hc : c ∈ seen
    · simpa only [removeDupGo, if_pos hc] using ih seen
    · simp only [removeDupGo, if_neg hc]
      obtain ⟨hmem, hnd⟩ := ih (c :: seen)
      refine ⟨?_, ?_⟩
      · intro d hd
        rcases List.mem_cons.mp hd with rfl | hd'
        · exact hc
        · exact fun hds => hmem d hd' (List.mem_cons_of_mem _ hds)
      · exact List.nodup_cons.mpr
          ⟨fun hcm => hmem c hcm (List.mem_cons_self c seen), hnd⟩

/-- C9: `remove_duplicates` keeps exactly the first occurrence of each
character in order (it agrees with the spec-modelled `keepFirst`, is a
subsequence of the input, and has no duplicates); "aabbcc" gives "abc". -/
theorem remove_duplicates_correct :
    (∀ s : List Nat,
      remove_duplicates s = keepFirst s ∧
      remove_duplicates s <+ s ∧
      (remove_duplicates s).Nodup) ∧
    remove_duplicates [97, 97, 98, 98, 99, 99] = [97, 98, 99] := by
  refine ⟨fun s => ⟨?_, ?_, ?_⟩, by decide⟩
  · exact removeDupGo_eq_keepFirstGo s [] [] fun c => Iff.rfl
  · exact removeDupGo_sublist s []
  · exact (removeDupGo_nodup s []).2

/-! ## C8: Levenshtein distance -/

theorem levTable_succ_succ (s1 s2 : List Nat) (i j : Nat) :
    levTable s1 s2 (i + 1) (j + 1) =
      if s1.getD i 0 = s2.getD j 0 then levTable s1 s2 i j
      else 1 + min (levTable s1 s2 i (j + 1))
        (min (levTable s1 s2 (i + 1) j) (levTable s1 s2 i j)) := rfl

theorem levTable_eq_spec (s1 s2 : List Nat) :
    ∀ i j, levTable s1 s2 i j = levSpecDp s1 s2 i j := by
  intro i
  induction i with
  | zero =>
    intro j
    cases j with
    | zero => simp [levTable, levSpecDp]
    | succ j => simp [levTable, levSpecDp]
  | succ i ihi =>
    intro j
    induction j with
    | zero => simp [levTable, levRow, levSpecDp]
    | succ j ihj =>
      rw [levTable_succ_succ]
      simp only [levSpecDp]
      rw [ihi j, ihi (j + 1), ihj]

theorem levTable_self_diag (s : List Nat) : ∀ i, levTable s s i i = 0 := by
  intro i
  induction i with
  | zero => rfl
  | succ i ih => rw [levTable_succ_succ, if_pos rfl, ih]

/-- C8: `levenshtein_distance` equals the classic dynamic-programming
recurrence (base cases `dp[i][0] = i`, `dp[0][j] = j`, cost 1 for
insert/delete/substitute and 0 for a match); the distance of a string to
itself is 0 and the distance from "kitten" to "sitting" is 3. -/
theorem levenshtein_distance_correct :
    (∀ s1 s2 : List Nat,
      levenshtein_distance s1 s2 = levSpecDp s1 s2 s1.length s2.length) ∧
    (∀ s : List Nat, levenshtein_distance s s = 0) ∧
    levenshtein_distance [107, 105, 116, 116, 101, 110]
      [115, 105, 116, 116, 105, 110, 103] = 3 :=
  ⟨fun s1 s2 => levTable_eq_spec s1 s2 s1.length s2.length,
   fun s => levTable_self_diag s s.length, by decide⟩

/-! ## C1: longest common subsequence -/

theorem lcsTable_zero (s1 s2 : List Nat) (j : Nat) : lcsTable s1 s2 0 j = 0 := rfl

theorem lcsTable_succ_zero (s1 s2 : List Nat) (i : Nat) :
    lcsTable s1 s2 (i + 1) 0 = 0 := rfl

theorem lcsTable_succ_succ (s1 s2 : List Nat) (i j : Nat) :
    lcsTable s1 s2 (i + 1) (j + 1) =
      if s1.getD i 0 = s2.getD j 0 then lcsTable s1 s2 i j + 1
      else max (lcsTable s1 s2 i (j + 1)) (lcsTable s1 s2 (i + 1) j) := rfl

theorem lcsBTgo_eq_specLeft (s1 s2 : List Nat) :
    ∀ k i j, lcsBTgo s1 s2 k i j = lcsBTSpecLeft s1 s2 k i j := by
  intro k
  induction k with
  | zero => intro i j; rfl
  | succ k ih =>
    intro i j
    match i, j with
    | 0, j => rfl
    | i + 1, 0 => rfl
    | i + 1, j + 1 =>
      by_cases hc : s1.getD i 0 = s2.getD j 0
      · simp only [lcsBTgo, lcsBTSpecLeft, if_pos hc, ih]
      · by_cases hg : lcsTable s1 s2 i (j + 1) > lcsTable s1 s2 (i + 1) j
        · have hg' : ¬ lcsTable s1 s2 (i + 1) j ≥ lcsTable s1 s2 i (j + 1) := by omega
          simp only [lcsBTgo, lcsBTSpecLeft, if_neg hc, if_pos hg, if_neg hg', ih]
        · have hg' : lcsTable s1 s2 (i + 1) j ≥ lcsTable s1 s2 i (j + 1) := by omega
          simp only [lcsBTgo, lcsBTSpecLeft, if_neg hc, if_neg hg, if_pos hg', ih]

theorem lcsBTgo_correct (s1 s2 : List Nat) :
    ∀ k i j, i + j ≤ k → i ≤ s1.length → j ≤ s2.length →
      lcsBTgo s1 s2 k i j <+ s1.take i ∧ lcsBTgo s1 s2 k i j <+ s2.take j ∧
      (lcsBTgo s1 s2 k i j).length = lcsTable s1 s2 i j := by
  intro k
  induction k with
  | zero =>
    intro i j hij hi hj
    obtain rfl : i = 0 := by omega
    obtain rfl : j = 0 := by omega
    exact ⟨List.nil_sublist _, List.nil_sublist _, rfl⟩
  | succ k ih =>
    intro i j hij hi hj
    match i, j with
    | 0, j => exact ⟨List.nil_sublist _, List.nil_sublist _, rfl⟩
    | i + 1, 0 => exact ⟨List.nil_sublist _, List.nil_sublist _, rfl⟩
    | i + 1, j + 1 =>
      have hi' : i < s1.length := by omega
      have hj' : j < s2.length := by omega
      by_cases hc : s1.getD i 0 = s2.getD j 0
      · have e : lcsBTgo s1 s2 (k + 1) (i + 1) (j + 1) =
            lcsBTgo s1 s2 k i j ++ [s1.getD i 0] := by
          simp only [lcsBTgo, if_pos hc]
        obtain ⟨h1, h2, h3⟩ := ih i j (by omega) (by omega) (by omega)
        refine ⟨?_, ?_, ?_⟩
        · rw [e, take_succ_getD hi']
          exact h1.append (List.Sublist.refl _)
        · rw [e, take_succ_getD hj', hc]
          exact h2.append (List.Sublist.refl _)
        · rw [e, List.length_append, h3, lcsTable_succ_succ, if_pos hc]
          rfl
      · by_cases hg : lcsTable s1 s2 i (j + 1) > lcsTable s1 s2 (i + 1) j
        · have e : lcsBTgo s1 s2 (k + 1) (i + 1) (j + 1) =
              lcsBTgo s1 s2 k i (j + 1) := by
            simp only [lcsBTgo, if_neg hc, if_pos hg]
          obtain ⟨h1, h2, h3⟩ := ih i (j + 1) (by omega) (by omega) (by omega)
          refine ⟨?_, ?_, ?_⟩
          · rw [e]
            exact h1.trans (List.take_sublist_take_left s1 (by omega))
          · rw [e]; exact h2
          · rw [e, h3, lcsTable_succ_succ, if_neg hc]
            omega
        · have e : lcsBTgo s1 s2 (k + 1) (i + 1) (j + 1) =
              lcsBTgo s1 s2 k (i + 1) j := by
            simp only [lcsBTgo, if_neg hc, if_neg hg]
          obtain ⟨h1, h2, h3⟩ := ih (i + 1) j (by omega) (by omega) (by omega)
          refine ⟨?_, ?_, ?_⟩
          · rw [e]; exact h1
          · rw [e]
            exact h2.trans (List.take_sublist_take_left s2 (by omega))
          · rw [e, h3, lcsTable_succ_succ, if_neg hc]
            omega

theorem lcsTable_is_max (s1 s2 : List Nat) :
    ∀ n i j, i + j ≤ n → i ≤ s1.length → j ≤ s2.length →
      ∀ u : List Nat, u <+ s1.take i → u <+ s2.take j →
        u.length ≤ lcsTable s1 s2 i j := by
  intro n
  induction n with
  | zero =>
    intro i j hij hi hj u hu1 hu2
    obtain rfl : i = 0 := by omega
    rw [List.take_zero] at hu1
    obtain rfl : u = [] := List.sublist_nil.mp hu1
    exact Nat.zero_le _
  | succ n ih =>
    intro i j hij hi hj u hu1 hu2
    match i, j with
    | 0, j =>
      rw [List.take_zero] at hu1
      obtain rfl : u = [] := List.sublist_nil.mp hu1
      exact Nat.zero_le _
    | i + 1, 0 =>
      rw [List.take_zero] at hu2
      obtain rfl : u = [] := List.sublist_nil.mp hu2
      exact Nat.zero_le _
    | i + 1, j + 1 =>
      have hi' : i < s1.length := by omega
      have hj' : j < s2.length := by omega
      have hu1' := hu1
      have hu2' := hu2
      rw [take_succ_getD hi'] at hu1'
      rw [take_succ_getD hj'] at hu2'
      obtain ⟨u1, u2, hue, hu11, hu12⟩ := List.sublist_append_iff.mp hu1'
      obtain ⟨w1, w2, hwe, hw1, hw2⟩ := List.sublist_append_iff.mp hu2'
      by_cases hc : s1.getD i 0 = s2.getD j 0
      · rw [lcsTable_succ_succ, if_pos hc]
        rcases List.sublist_singleton.mp hu12 with h2e | h2e <;>
          rcases List.sublist_singleton.mp hw2 with hw2e | hw2e
        · -- u ends with neither letter: u is common to both shorter prefixes
          subst h2e hw2e
          rw [List.append_nil] at hue hwe
          have h1 : u <+ s1.take i := by rw [hue]; exact hu11
          have h2 : u <+ s2.take j := by rw [hwe]; exact hw1
          have := ih i j (by omega) (by omega) (by omega) u h1 h2
          omega
        · -- u ends with the second letter
          subst h2e hw2e
          rw [List.append_nil] at hue
          have hsub : w1 <+ s1.take i := by
            refine (List.sublist_append_left w1 [s2.getD j 0]).trans ?_
            rw [← hwe, hue]; exact hu11
          have := ih i j (by omega) (by omega) (by omega) w1 hsub hw1
          have hlen : u.length = w1.length + 1 := by rw [hwe]; simp
          omega
        · -- u ends with the first letter
          subst h2e hw2e
          rw [List.append_nil] at hwe
          have hsub : u1 <+ s2.take j := by
            refine (List.sublist_append_left u1 [s1.getD i 0]).trans ?_
            rw [← hue, hwe]; exact hw1
          have := ih i j (by omega) (by omega) (by omega) u1 hu11 hsub
          have hlen : u.length = u1.length + 1 := by rw [hue]; simp
          omega
        · -- u ends with both letters, which agree
          subst h2e hw2e
          have he : u1 ++ [s1.getD i 0] = w1 ++ [s2.getD j 0] := hue ▸ hwe
          obtain ⟨rfl, -⟩ := List.append_inj' he (by simp)
          have := ih i j (by omega) (by omega) (by omega) u1 hu11 hw1
          have hlen : u.length = u1.length + 1 := by rw [hue]; simp
          omega
      · rw [lcsTable_succ_succ, if_neg hc]
        rcases List.sublist_singleton.mp hu12 with h2e | h2e
        · -- u does not end with the first letter: common to take i and take (j+1)
          subst h2e
          rw [List.append_nil] at hue
          have h1 : u <+ s1.take i := by rw [hue]; exact hu11
          have := ih i (j + 1) (by omega) (by omega) (by omega) u h1 hu2
          omega
        · rcases List.sublist_singleton.mp hw2 with hw2e | hw2e
          · -- u does not end with the second letter
            subst hw2e
            rw [List.append_nil] at hwe
            have h2 : u <+ s2.take j := by rw [hwe]; exact hw1
            have := ih (i + 1) j (by omega) (by omega) (by omega) u hu1 h2
            omega
          · -- u would end with both distinct letters: impossible
            subst h2e hw2e
            have he : u1 ++ [s1.getD i 0] = w1 ++ [s2.getD j 0] := hue ▸ hwe
            obtain ⟨-, hs⟩ := List.append_inj' he (by simp)
            have hab : s1.getD i 0 = s2.getD j 0 := by injection hs
            exact absurd hab hc

/-- C1 fails as stated: on "ab" and "ba" the two neighboring cells tie and the
code moves left (returning "b"), while the claimed up-on-tie backtracking
returns "a". -/
theorem lcs_tiebreak_counterexample :
    ¬ (longest_common_subsequence [97, 98] [98, 97] =
        lcsSpecUp [97, 98] [98, 97]) := by decide

/-- C1 (amended): `longest_common_subsequence` backtracks from the
bottom-right cell moving toward the larger neighboring cell, but on a tie it
decrements the SECOND sequence's index (moves left); the result is an optimal
(maximum-length) common subsequence of the two inputs. -/
theorem longest_common_subsequence_correct (s1 s2 : List Nat) :
    longest_common_subsequence s1 s2 = lcsSpecLeft s1 s2 ∧
    longest_common_subsequence s1 s2 <+ s1 ∧
    longest_common_subsequence s1 s2 <+ s2 ∧
    ∀ u : List Nat, u <+ s1 → u <+ s2 →
      u.length ≤ (longest_common_subsequence s1 s2).length := by
  obtain ⟨h1, h2, h3⟩ := lcsBTgo_correct s1 s2 (s1.length + s2.length)
    s1.length s2.length le_rfl le_rfl le_rfl
  rw [List.take_length] at h1
  rw [List.take_length] at h2
  refine ⟨lcsBTgo_eq_specLeft s1 s2 _ _ _, h1, h2, fun u hu1 hu2 => ?_⟩
  have hmax := lcsTable_is_max s1 s2 (s1.length + s2.length) s1.length s2.length
    le_rfl le_rfl le_rfl u (by rw [List.take_length]; exact hu1)
    (by rw [List.take_length]; exact hu2)
  calc u.length ≤ lcsTable s1 s2 s1.length s2.length := hmax
  _ = (longest_common_subsequence s1 s2).length := h3.symm

/-! ## C2/C10: KMP pattern search

The KMP state variable `j` always equals `bestBorder p s b`: the length of the
longest prefix of the pattern that is a suffix of the processed text `s`,
among lengths at most `b`. -/

theorem append_singleton_suffix {u s : List Nat} {a c : Nat} :
    u ++ [a] <:+ s ++ [c] ↔ u <:+ s ∧ a = c := by
  constructor
  · rintro ⟨w, hw⟩
    have hw' : (w ++ u) ++ [a] = s ++ [c] := by
      rw [List.append_assoc]; exact hw
    obtain ⟨h1, h2⟩ := List.append_inj' hw' (by simp)
    have h2' : a = c := by injection h2
    exact ⟨⟨w, h1⟩, h2'⟩
  · rintro ⟨⟨w, rfl⟩, rfl⟩
    exact ⟨w, by rw [List.append_assoc]⟩

theorem take_suffix_ext {p s : List Nat} {c k : Nat} (hk1 : 1 ≤ k)
    (hkm : k ≤ p.length) :
    p.take k <:+ s ++ [c] ↔ p.take (k - 1) <:+ s ∧ p.getD (k - 1) 0 = c := by
  obtain ⟨k', rfl⟩ : ∃ k', k = k' + 1 := ⟨k - 1, by omega⟩
  rw [take_succ_getD (by omega), append_singleton_suffix]
  exact Iff.rfl

theorem bestBorder_le (p s : List Nat) (b : Nat) : bestBorder p s b ≤ b :=
  Nat.findGreatest_le b

theorem bestBorder_suffix (p s : List Nat) (b : Nat) :
    p.take (bestBorder p s b) <:+ s := by
  induction b with
  | zero => simp [bestBorder]
  | succ b ih =>
    unfold bestBorder at *
    rw [Nat.findGreatest_succ]
    by_cases h : p.take (b + 1) <:+ s
    · rw [if_pos h]; exact h
    · rw [if_neg h]; exact ih

theorem le_bestBorder {p s : List Nat} {b k : Nat} (hk : k ≤ b)
    (h : p.take k <:+ s) : k ≤ bestBorder p s b :=
  Nat.le_findGreatest hk h

theorem bestBorder_is_greatest {p s : List Nat} {b k : Nat}
    (h : bestBorder p s b < k) (hk : k ≤ b) : ¬ (p.take k <:+ s) :=
  Nat.findGreatest_is_greatest h hk

theorem bestBorder_succ_of_not {p s : List Nat} {b : Nat}
    (h : ¬ (p.take (b + 1) <:+ s)) : bestBorder p s (b + 1) = bestBorder p s b :=
  Nat.findGreatest_of_not h

theorem bestBorder_congr {p : List Nat} {s s' : List Nat} {b : Nat}
    (h : ∀ k, k ≤ b → (p.take k <:+ s ↔ p.take k <:+ s')) :
    bestBorder p s b = bestBorder p s' b := by
  induction b with
  | zero => rfl
  | succ b ih =>
    unfold bestBorder
    rw [Nat.findGreatest_succ, Nat.findGreatest_succ]
    by_cases hb : p.take (b + 1) <:+ s
    · rw [if_pos hb, if_pos ((h _ le_rfl).mp hb)]
    · rw [if_neg hb, if_neg (fun hb' => hb ((h _ le_rfl).mpr hb'))]
      exact ih fun k hk => h k (le_trans hk (Nat.le_succ b))

/-- Behaviour of the fallback `while` loop: run from a state `j` that
over-approximates every candidate border of `s ++ [c]`, it lands on a state
that is still a border of `s`, still dominates every candidate, and at which
the loop exit condition holds. -/
theorem kmpFB_spec (p fail s : List Nat) (c : Nat) (bound : Nat)
    (hbm : bound + 1 ≤ p.length)
    (htab : ∀ t, 1 ≤ t → t ≤ bound →
      fail.getD (t - 1) 0 = bestBorder p (p.take t) (t - 1)) :
    ∀ fuel j, j ≤ fuel → j ≤ bound →
      p.take j <:+ s →
      (∀ k, p.take k <:+ s ++ [c] → k ≤ bound + 1 → k ≤ j + 1) →
      kmpFB p fail c fuel j ≤ j ∧
      p.take (kmpFB p fail c fuel j) <:+ s ∧
      (∀ k, p.take k <:+ s ++ [c] → k ≤ bound + 1 → k ≤ kmpFB p fail c fuel j + 1) ∧
      (kmpFB p fail c fuel j = 0 ∨ c = p.getD (kmpFB p fail c fuel j) 0) := by
  intro fuel
  induction fuel with
  | zero =>
    intro j hjf hjb hsuf hinv
    obtain rfl : j = 0 := by omega
    exact ⟨le_rfl, hsuf, hinv, Or.inl rfl⟩
  | succ fuel ih =>
    intro j hjf hjb hsuf hinv
    by_cases hcnd : j ≠ 0 ∧ c ≠ p.getD j 0
    · have e : kmpFB p fail c (fuel + 1) j = kmpFB p fail c fuel (fail.getD (j - 1) 0) := by
        simp only [kmpFB, if_pos hcnd]
      obtain ⟨hj1, hcne⟩ := hcnd
      have hj : 1 ≤ j := Nat.one_le_iff_ne_zero.mpr hj1
      have hjtab : fail.getD (j - 1) 0 = bestBorder p (p.take j) (j - 1) := htab j hj hjb
      have hj'le : fail.getD (j - 1) 0 ≤ j - 1 := by
        rw [hjtab]; exact bestBorder_le _ _ _
      have hj'suf : p.take (fail.getD (j - 1) 0) <:+ s := by
        rw [hjtab]
        exact (bestBorder_suffix p (p.take j) (j - 1)).trans hsuf
      have hinv' : ∀ k, p.take k <:+ s ++ [c] → k ≤ bound + 1 →
          k ≤ fail.getD (j - 1) 0 + 1 := by
        intro k hk hkb
        by_contra hgt
        push_neg at hgt
        have hk1 : 1 ≤ k := by omega
        have hkm : k ≤ p.length := by omega
        obtain ⟨hks, hkc⟩ := (take_suffix_ext hk1 hkm).mp hk
        have hkj : k ≤ j + 1 := hinv k hk hkb
        by_cases hkje : k - 1 = j
        · rw [hkje] at hkc
          exact hcne hkc.symm
        · have hklt : k - 1 < j := by omega
          have h1 : p.take (k - 1) <:+ p.take j := by
            apply List.suffix_of_suffix_length_le hks hsuf
            rw [List.length_take_of_le (by omega), List.length_take_of_le (by omega)]
            omega
          exact bestBorder_is_greatest (by rw [← hjtab]; omega) (by omega) h1
      rw [e]
      obtain ⟨ha, hb, hc', hd⟩ := ih (fail.getD (j - 1) 0) (by omega) (by omega) hj'suf hinv'
      exact ⟨le_trans ha (by omega), hb, hc', hd⟩
    · have e : kmpFB p fail c (fuel + 1) j = j := by
        simp only [kmpFB, if_neg hcnd]
      rw [e]
      refine ⟨le_rfl, hsuf, hinv, ?_⟩
      by_cases h0 : j = 0
      · exact Or.inl h0
      · rcases Decidable.not_and_iff_or_not.mp hcnd with h | h
        · exact absurd h0 (by simpa using h)
        · exact Or.inr (by simpa using h)

/-- One step of the KMP state update: from the exact best border of `s`
(bounded by `bound`), the fallback loop followed by the conditional increment
computes the exact best border of `s ++ [c]` (bounded by `bound + 1`). -/
theorem kmpStep_spec (p fail s : List Nat) (c : Nat) (bound : Nat)
    (hbm : bound + 1 ≤ p.length)
    (htab : ∀ t, 1 ≤ t → t ≤ bound →
      fail.getD (t - 1) 0 = bestBorder p (p.take t) (t - 1))
    (j : Nat) (hj : j = bestBorder p s bound) :
    (if c = p.getD (kmpFB p fail c j j) 0 then kmpFB p fail c j j + 1
      else kmpFB p fail c j j) = bestBorder p (s ++ [c]) (bound + 1) := by
  have hjb : j ≤ bound := hj ▸ bestBorder_le p s bound
  have hsuf : p.take j <:+ s := hj ▸ bestBorder_suffix p s bound
  have hinv : ∀ k, p.take k <:+ s ++ [c] → k ≤ bound + 1 → k ≤ j + 1 := by
    intro k hk hkb
    rcases Nat.eq_zero_or_pos k with rfl | hk1
    · omega
    · have hkm : k ≤ p.length := by omega
      obtain ⟨hks, -⟩ := (take_suffix_ext hk1 hkm).mp hk
      have : k - 1 ≤ j := by
        rw [hj]; exact le_bestBorder (by omega) hks
      omega
  obtain ⟨hr_le, hr_suf, hr_inv, hr_exit⟩ :=
    kmpFB_spec p fail s c bound hbm htab j j le_rfl hjb hsuf hinv
  by_cases hrc : c = p.getD (kmpFB p fail c j j) 0
  · rw [if_pos hrc]
    have hcand : p.take (kmpFB p fail c j j + 1) <:+ s ++ [c] := by
      apply (take_suffix_ext (by omega) (by omega)).mpr
      exact ⟨hr_suf, hrc.symm⟩
    apply le_antisymm
    · exact le_bestBorder (by omega) hcand
    · exact hr_inv _ (bestBorder_suffix p (s ++ [c]) (bound + 1))
        (bestBorder_le p (s ++ [c]) (bound + 1))
  · rw [if_neg hrc]
    have hr0 : kmpFB p fail c j j = 0 := by
      rcases hr_exit with h | h
      · exact h
      · exact absurd h hrc
    rw [hr0]
    symm
    unfold bestBorder
    rw [Nat.findGreatest_eq_zero_iff]
    intro k hk0 hkb hk
    have hk1 : k = 1 := by have := hr_inv k hk hkb; omega
    subst hk1
    obtain ⟨-, hc0⟩ := (take_suffix_ext le_rfl (by omega)).mp hk
    rw [hr0] at hrc
    exact hrc (by simpa using hc0.symm)

theorem getD_append_lt (l l' : List Nat) (n d : Nat) (h : n < l.length) :
    (l ++ l').getD n d = l.getD n d := by
  rw [List.getD_eq_getElem?_getD, List.getD_eq_getElem?_getD,
    List.getElem?_append_left h]

theorem getD_append_len (l : List Nat) (x d : Nat) :
    (l ++ [x]).getD l.length d = x := by
  rw [List.getD_eq_getElem?_getD, List.getElem?_append_right le_rfl]
  simp

/-- Correctness of the failure-table construction loop: if the entries built
so far are the best borders of the corresponding pattern prefixes, the
completed table consists of the best borders of all pattern prefixes. -/
theorem buildGo_correct (p : List Nat) :
    ∀ rest : List Nat, ∀ i j fail, rest = p.drop i → 1 ≤ i → i ≤ p.length →
      fail.length = i →
      (∀ t, 1 ≤ t → t ≤ i → fail.getD (t - 1) 0 = bestBorder p (p.take t) (t - 1)) →
      j = bestBorder p (p.take i) (i - 1) →
      (buildGo p rest j fail).length = p.length ∧
      ∀ t, 1 ≤ t → t ≤ p.length →
        (buildGo p rest j fail).getD (t - 1) 0 = bestBorder p (p.take t) (t - 1) := by
  intro rest
  induction rest with
  | nil =>
    intro i j fail hrest h1 him hlen htab hj
    have : p.length ≤ i := List.drop_eq_nil_iff.mp hrest.symm
    obtain rfl : i = p.length := by omega
    exact ⟨hlen, htab⟩
  | cons c rest' ih =>
    intro i j fail hrest h1 him hlen htab hj
    have him' : i < p.length := by
      rcases Nat.lt_or_ge i p.length with h | h
      · exact h
      · rw [List.drop_eq_nil_of_le h] at hrest
        exact absurd hrest (by simp)
    have hdrop : p.drop i = p[i] :: p.drop (i + 1) := List.drop_eq_getElem_cons him'
    rw [hdrop] at hrest
    obtain ⟨hc, hrest'⟩ : c = p.getD i 0 ∧ rest' = p.drop (i + 1) := by
      have h1' : c = p[i] := by injection hrest
      have h2' : rest' = p.drop (i + 1) := by injection hrest
      exact ⟨by rw [h1', List.getD_eq_getElem _ _ him'], h2'⟩
    have hstep := kmpStep_spec p fail (p.take i) c (i - 1) (by omega)
      (fun t ht1 hti => htab t ht1 (by omega)) j hj
    have htake : p.take i ++ [c] = p.take (i + 1) := by
      rw [hc, take_succ_getD him']
    have hsub : i - 1 + 1 = i := Nat.sub_add_cancel h1
    rw [htake, hsub] at hstep
    -- hstep : (if c = p.getD (kmpFB p fail c j j) 0 then kmpFB p fail c j j + 1
    --          else kmpFB p fail c j j) = bestBorder p (p.take (i + 1)) i
    simp only [buildGo]
    refine ih (i + 1) _ _ hrest' (by omega) (by omega) ?_ ?_ ?_
    · rw [List.length_append, hlen]; rfl
    · intro t ht1 hti
      rcases Nat.lt_or_ge t (i + 1) with hti' | hti'
      · rw [getD_append_lt _ _ _ _ (by omega)]
        exact htab t ht1 (by omega)
      · obtain rfl : t = i + 1 := by omega
        have hgd : (fail ++ [if c = p.getD (kmpFB p fail c j j) 0 then kmpFB p fail c j j + 1
            else kmpFB p fail c j j]).getD i 0 =
            (if c = p.getD (kmpFB p fail c j j) 0 then kmpFB p fail c j j + 1
            else kmpFB p fail c j j) := by
          have h := getD_append_len fail (if c = p.getD (kmpFB p fail c j j) 0 then
            kmpFB p fail c j j + 1 else kmpFB p fail c j j) 0
          rwa [hlen] at h
        simp only [Nat.add_sub_cancel]
        rw [hgd]
        exact hstep
    · simp only [Nat.add_sub_cancel]
      exact hstep

/-- Correctness of `build_failure_function` for a nonempty pattern: the table
has the pattern's length, and entry `t - 1` is the longest proper border of
the length-`t` prefix of the pattern. -/
theorem build_failure_correct (p : List Nat) (hp : p ≠ []) :
    (build_failure_function p).length = p.length ∧
    ∀ t, 1 ≤ t → t ≤ p.length →
      (build_failure_function p).getD (t - 1) 0 = bestBorder p (p.take t) (t - 1) := by
  have hpe : ¬ (p.isEmpty = true) := by simp [hp]
  have he : build_failure_function p = buildGo p (p.drop 1) 0 [0] := by
    unfold build_failure_function
    rw [if_neg hpe]
  rw [he]
  apply buildGo_correct p (p.drop 1) 1 0 [0] rfl le_rfl (List.length_pos.mpr hp) rfl
  · intro t ht1 hti
    obtain rfl : t = 1 := by omega
    rfl
  · rfl

/-- The scanning loop computes exactly the end-position based occurrence list:
the state `j` entering each iteration is the best border (strictly shorter
than the pattern) of the processed text. -/
theorem kmpScanGo_eq_occEnd (p fail : List Nat) (hp : p ≠ [])
    (htab : ∀ t, 1 ≤ t → t ≤ p.length →
      fail.getD (t - 1) 0 = bestBorder p (p.take t) (t - 1)) :
    ∀ rest : List Nat, ∀ s j, j = bestBorder p s (p.length - 1) →
      kmpScanGo p fail p.length rest s.length j = occEndGo p s rest := by
  have hm1 : 1 ≤ p.length := List.length_pos.mpr hp
  intro rest
  induction rest with
  | nil => intro s j hj; rfl
  | cons c rest' ih =>
    intro s j hj
    have hstep := kmpStep_spec p fail s c (p.length - 1) (by omega)
      (fun t ht1 hti => htab t ht1 (by omega)) j hj
    rw [Nat.sub_add_cancel hm1] at hstep
    -- hstep : (if ... then kmpFB + 1 else kmpFB) = bestBorder p (s ++ [c]) p.length
    have hlen' : (s ++ [c]).length = s.length + 1 := by simp
    simp only [kmpScanGo]
    rw [hstep]
    by_cases hfull : bestBorder p (s ++ [c]) p.length = p.length
    · have hocc : p <:+ s ++ [c] := by
        have := Nat.findGreatest_of_ne_zero hfull (by omega)
        rwa [List.take_length] at this
      rw [if_pos hfull]
      have hnext : fail.getD (p.length - 1) 0 = bestBorder p (s ++ [c]) (p.length - 1) := by
        rw [htab p.length hm1 le_rfl]
        rw [List.take_length]
        apply bestBorder_congr
        intro k hk
        constructor
        · exact fun h => h.trans hocc
        · intro h
          apply List.suffix_of_suffix_length_le h hocc
          rw [List.length_take_of_le (by omega)]
          omega
      have htail := ih (s ++ [c]) (fail.getD (p.length - 1) 0) (by rw [hnext])
      rw [hlen'] at htail
      rw [htail]
      simp only [occEndGo, if_pos hocc]
    · have hocc : ¬ (p <:+ s ++ [c]) := by
        intro h
        exact hfull (le_antisymm (bestBorder_le _ _ _)
          (le_bestBorder le_rfl (by rwa [List.take_length])))
      rw [if_neg hfull]
      have hshift : bestBorder p (s ++ [c]) p.length =
          bestBorder p (s ++ [c]) (p.length - 1) := by
        obtain ⟨n, hn⟩ : ∃ n, p.length = n + 1 := ⟨p.length - 1, by omega⟩
        rw [hn, Nat.add_sub_cancel]
        apply bestBorder_succ_of_not
        rw [← hn, List.take_length]
        exact hocc
      have htail := ih (s ++ [c]) (bestBorder p (s ++ [c]) p.length) hshift
      rw [hlen'] at htail
      rw [htail]
      simp only [occEndGo, if_neg hocc]

/-- For valid inputs, `find_pattern` computes the end-position based
occurrence list of the KMP scan. -/
theorem find_pattern_eq_occEnd (t p : List Nat) (hp : p ≠ []) (ht : t ≠ [])
    (hlen : p.length ≤ t.length) :
    find_pattern t p = occEndGo p [] t := by
  have hguard : ¬ (p.isEmpty ∨ t.isEmpty ∨ t.length < p.length) := by
    simp only [List.isEmpty_iff]
    push_neg
    exact ⟨hp, ht, by omega⟩
  have he : find_pattern t p =
      kmpScanGo p (build_failure_function p) p.length t 0 0 := by
    unfold find_pattern
    rw [if_neg hguard]
  rw [he]
  obtain ⟨-, hft⟩ := build_failure_correct p hp
  have h0 : (0 : Nat) = bestBorder p ([] : List Nat) (p.length - 1) := by
    symm
    unfold bestBorder
    rw [Nat.findGreatest_eq_zero_iff]
    intro k hk0 hkb hk
    have hke : p.take k = [] := List.suffix_nil.mp hk
    have : (p.take k).length = 0 := by rw [hke]; rfl
    rw [List.length_take_of_le (by omega)] at this
    omega
  exact kmpScanGo_eq_occEnd p (build_failure_function p) hp hft t [] 0 h0

theorem isPrefixOf_eq_true_iff {l₁ l₂ : List Nat} :
    l₁.isPrefixOf l₂ = true ↔ l₁ <+: l₂ := List.isPrefixOf_iff_prefix

/-- The occurrence list in end-position form, as a filtered range of
end positions mapped to start offsets. -/
theorem occEndGo_eq_filter (p : List Nat) :
    ∀ rest s : List Nat, occEndGo p s rest =
      ((List.range rest.length).filter fun d => decide (p <:+ s ++ rest.take (d + 1))).map
        fun d => s.length + d + 1 - p.length := by
  intro rest
  induction rest with
  | nil => intro s; rfl
  | cons c rest' ih =>
    intro s
    have hcong1 : ∀ d ∈ List.range rest'.length,
        ((fun d => decide (p <:+ s ++ (c :: rest').take (d + 1))) ∘ Nat.succ) d =
        (fun d => decide (p <:+ (s ++ [c]) ++ rest'.take (d + 1))) d := by
      intro d _
      simp only [Function.comp_apply]
      apply decide_eq_decide.mpr
      rw [List.take_succ_cons, List.append_cons]
    have hcong2 : ∀ d ∈ (List.range rest'.length).filter
        (fun d => decide (p <:+ (s ++ [c]) ++ rest'.take (d + 1))),
        ((fun d => s.length + d + 1 - p.length) ∘ Nat.succ) d =
        (fun d => (s ++ [c]).length + d + 1 - p.length) d := by
      intro d _
      simp only [Function.comp_apply, List.length_append, List.length_cons,
        List.length_nil]
      omega
    by_cases hocc : p <:+ s ++ [c]
    · have hf0 : (fun d => decide (p <:+ s ++ (c :: rest').take (d + 1))) 0 = true :=
        decide_eq_true hocc
      simp only [occEndGo, if_pos hocc]
      rw [List.length_cons, List.range_succ_eq_map,
        @List.filter_cons_of_pos Nat
          (fun d => decide (p <:+ s ++ (c :: rest').take (d + 1))) 0
          (List.map Nat.succ (List.range rest'.length)) hf0,
        List.map_cons]
      congr 1
      rw [List.filter_map, List.map_map, List.filter_congr hcong1,
        List.map_congr_left hcong2]
      exact ih (s ++ [c])
    · have hf0 : ¬ ((fun d => decide (p <:+ s ++ (c :: rest').take (d + 1))) 0 = true) :=
        fun h => hocc (of_decide_eq_true h)
      simp only [occEndGo, if_neg hocc]
      rw [List.length_cons, List.range_succ_eq_map,
        @List.filter_cons_of_neg Nat
          (fun d => decide (p <:+ s ++ (c :: rest').take (d + 1))) 0
          (List.map Nat.succ (List.range rest'.length)) hf0]
      rw [List.filter_map, List.map_map, List.filter_congr hcong1,
        List.map_congr_left hcong2]
      exact ih (s ++ [c])

/-- An occurrence of `p` ending at index `e` of `t` is the same thing as an
occurrence starting at offset `e + 1 - |p|`. -/
theorem suffix_take_iff (t p : List Nat) (e : Nat) (he : e < t.length) :
    p <:+ t.take (e + 1) ↔
      p.length ≤ e + 1 ∧ p <+: t.drop (e + 1 - p.length) := by
  constructor
  · intro h
    have hlen : p.length ≤ e + 1 := by
      have h2 : p.length ≤ min (e + 1) t.length := by
        rw [← List.length_take]; exact h.length_le
      omega
    refine ⟨hlen, ?_⟩
    have he1 : (t.take (e + 1)).length = e + 1 := List.length_take_of_le (by omega)
    have hd := List.suffix_iff_eq_drop.mp h
    rw [he1, List.drop_take] at hd
    have harith : e + 1 - (e + 1 - p.length) = p.length := by omega
    rw [harith] at hd
    exact List.prefix_iff_eq_take.mpr hd
  · rintro ⟨hlen, hpre⟩
    have hd := List.prefix_iff_eq_take.mp hpre
    refine ⟨t.take (e + 1 - p.length), ?_⟩
    nth_rewrite 2 [hd]
    rw [← List.take_add]
    congr 1
    omega

/-- Reindexing the end-position form to the start-offset form yields exactly
`pattern_occurrences`. -/
theorem filter_endpos_eq_occurrences (t p : List Nat) (hp : p ≠ [])
    (hlen : p.length ≤ t.length) :
    ((List.range t.length).filter fun e => decide (p <:+ t.take (e + 1))).map
      (fun e => e + 1 - p.length) = pattern_occurrences t p := by
  have hm1 : 1 ≤ p.length := List.length_pos.mpr hp
  have hsplit : t.length = (p.length - 1) + (t.length + 1 - p.length) := by omega
  conv_lhs => rw [hsplit]
  rw [List.range_add, List.filter_append, List.map_append]
  have hnil : (List.range (p.length - 1)).filter
      (fun e => decide (p <:+ t.take (e + 1))) = [] := by
    rw [List.filter_eq_nil_iff]
    intro e he hdec
    rw [List.mem_range] at he
    have hocc := of_decide_eq_true hdec
    have h2 : p.length ≤ min (e + 1) t.length := by
      rw [← List.length_take]; exact hocc.length_le
    omega
  rw [hnil]
  have hcong1 : ∀ q ∈ List.range (t.length + 1 - p.length),
      ((fun e => decide (p <:+ t.take (e + 1))) ∘ (fun x => p.length - 1 + x)) q =
      (fun q => p.isPrefixOf (t.drop q)) q := by
    intro q hq
    rw [List.mem_range] at hq
    simp only [Function.comp_apply]
    have he : p.length - 1 + q < t.length := by omega
    have hiff : (p <:+ t.take ((p.length - 1 + q) + 1)) ↔ p <+: t.drop q := by
      rw [suffix_take_iff t p (p.length - 1 + q) he]
      have h1 : p.length ≤ p.length - 1 + q + 1 := by omega
      have h2 : p.length - 1 + q + 1 - p.length = q := by omega
      rw [h2]
      exact ⟨fun h => h.2, fun h => ⟨h1, h⟩⟩
    cases hb : p.isPrefixOf (t.drop q) with
    | true => exact decide_eq_true (hiff.mpr (isPrefixOf_eq_true_iff.mp hb))
    | false =>
      apply decide_eq_false
      intro h
      have hb' := isPrefixOf_eq_true_iff.mpr (hiff.mp h)
      rw [hb] at hb'
      exact Bool.noConfusion hb'
  have hcong2 : ∀ q ∈ (List.range (t.length + 1 - p.length)).filter
      (fun q => p.isPrefixOf (t.drop q)),
      ((fun e => e + 1 - p.length) ∘ (fun x => p.length - 1 + x)) q =
      (fun q => q) q := by
    intro q _
    simp only [Function.comp_apply]
    omega
  rw [List.filter_map, List.map_map, List.filter_congr hcong1,
    List.map_congr_left hcong2]
  simp only [List.map_id_fun']
  rfl

/-- For a nonempty text, a nonempty pattern no longer than the text,
`find_pattern` returns exactly the ascending list of all start offsets of
occurrences. -/
theorem find_pattern_eq_occurrences (t p : List Nat) (ht : t ≠ []) (hp : p ≠ [])
    (hlen : p.length ≤ t.length) :
    find_pattern t p = pattern_occurrences t p := by
  rw [find_pattern_eq_occEnd t p hp ht hlen]
  have h1 := occEndGo_eq_filter p t []
  simp only [List.nil_append, List.length_nil, Nat.zero_add] at h1
  rw [h1]
  exact filter_endpos_eq_occurrences t p hp hlen

/-- C2: for nonempty text and nonempty pattern no longer than the text,
`find_pattern` returns exactly the list of all zero-based offsets at which the
pattern occurs as a contiguous substring, in strictly ascending order,
overlapping occurrences included. -/
theorem find_pattern_correct (t p : List Nat) (ht : t ≠ []) (hp : p ≠ [])
    (hlen : p.length ≤ t.length) :
    find_pattern t p = pattern_occurrences t p ∧
    List.Pairwise (· < ·) (find_pattern t p) ∧
    ∀ q : Nat, q ∈ find_pattern t p ↔
      q + p.length ≤ t.length ∧ (t.drop q).take p.length = p := by
  have hm1 : 1 ≤ p.length := List.length_pos.mpr hp
  have he := find_pattern_eq_occurrences t p ht hp hlen
  refine ⟨he, ?_, ?_⟩
  · rw [he]
    exact (List.pairwise_lt_range _).filter _
  · intro q
    rw [he]
    unfold pattern_occurrences
    rw [List.mem_filter, List.mem_range]
    constructor
    · rintro ⟨hq, hpre⟩
      have hpre' := List.prefix_iff_eq_take.mp (isPrefixOf_eq_true_iff.mp hpre)
      exact ⟨by omega, hpre'.symm⟩
    · rintro ⟨hq, htake⟩
      refine ⟨by omega, ?_⟩
      exact isPrefixOf_eq_true_iff.mpr (List.prefix_iff_eq_take.mpr htake.symm)

/-- Witness for C2 on the spec's own example: overlapping matches of "aa" in
"aaa" are found at offsets 0 and 1. -/
theorem find_pattern_correct_witness :
    find_pattern [97, 97, 97] [97, 97] = [0, 1] :=
  ((find_pattern_correct [97, 97, 97] [97, 97] (by decide) (by decide)
    (by decide)).1).trans (by decide)

theorem length_filter_singleton_eq_count (c : Nat) (t : List Nat) :
    ((List.range t.length).filter fun q => [c].isPrefixOf (t.drop q)).length =
      t.count c := by
  induction t with
  | nil => rfl
  | cons a t' ih =>
    have hcomp : ∀ q ∈ List.range t'.length,
        ((fun q => [c].isPrefixOf ((a :: t').drop q)) ∘ Nat.succ) q =
        (fun q => [c].isPrefixOf (t'.drop q)) q := fun q _ => rfl
    rw [List.length_cons, List.range_succ_eq_map]
    by_cases hca : c = a
    · subst hca
      have hf0 : (fun q => [c].isPrefixOf ((c :: t').drop q)) 0 = true := by
        simp [List.isPrefixOf]
      rw [@List.filter_cons_of_pos Nat
          (fun q => [c].isPrefixOf ((c :: t').drop q)) 0
          (List.map Nat.succ (List.range t'.length)) hf0,
        List.length_cons, List.filter_map, List.length_map,
        List.filter_congr hcomp, ih, List.count_cons]
      simp
    · have hf0 : ¬ ((fun q => [c].isPrefixOf ((a :: t').drop q)) 0 = true) := by
        simp [List.isPrefixOf, hca]
      rw [@List.filter_cons_of_neg Nat
          (fun q => [c].isPrefixOf ((a :: t').drop q)) 0
          (List.map Nat.succ (List.range t'.length)) hf0,
        List.filter_map, List.length_map, List.filter_congr hcomp, ih,
        List.count_cons]
      simp [hca, Ne.symm hca]

/-- C10: the number of positions found by `find_pattern` for a one-character
pattern equals `count_char` for that character, on every text. -/
theorem find_pattern_length_eq_count_char (t : List Nat) (c : Nat) :
    (find_pattern t [c]).length = count_char t c := by
  cases ht : t with
  | nil => rfl
  | cons a t' =>
    rw [← ht]
    have ht' : t ≠ [] := by rw [ht]; exact List.cons_ne_nil a t'
    have hlen : ([c] : List Nat).length ≤ t.length := by
      rw [ht]; simp
    rw [find_pattern_eq_occurrences t [c] ht' (List.cons_ne_nil c []) hlen]
    unfold pattern_occurrences
    rw [count_char_eq_count]
    have hrange : t.length + 1 - ([c] : List Nat).length = t.length := by simp
    rw [hrange]
    exact length_filter_singleton_eq_count c t

end StringUtils
